import Mathlib

set_option maxHeartbeats 2000000
set_option maxRecDepth 4096

/-!
Shallow embedding of the dice-roll core of `src/bot.py`: the regular
expression `ROLL_RE`, the `parse_and_roll` pipeline (parse, bounds
validation, sampling, aggregation, formatting) and the length-aware
output splitter of `_send_roll_to_channel`.  Messages are modelled as
`List Char`; the pseudo-random source `random.randint` is modelled as an
explicitly passed sampler `g : Nat → Nat → Nat` (index, sides) with its
contract `1 ≤ g i s ∧ g i s ≤ s` taken as a hypothesis where needed.
-/

/-- Python `\s` (ASCII range: space, tab, newline, carriage return,
vertical tab, form feed).  The claims only exercise ASCII inputs. -/
def isSpaceChar (c : Char) : Bool :=
  c == ' ' || c == '\t' || c == '\n' || c == '\r' || c == Char.ofNat 11 || c == Char.ofNat 12

/-- Python `\d` (ASCII range `0`-`9`). -/
def isDigitChar (c : Char) : Bool :=
  48 ≤ c.toNat && c.toNat ≤ 57

/-- Drop a maximal run of `\s` characters (a `\s*` item of `ROLL_RE`). -/
def skipWs : List Char → List Char
  | [] => []
  | c :: rest => if isSpaceChar c then skipWs rest else c :: rest

/-- Split off a maximal run of `\d` characters. -/
def takeDigits : List Char → List Char × List Char
  | [] => ([], [])
  | c :: rest =>
    if isDigitChar c then
      let p := takeDigits rest
      (c :: p.1, p.2)
    else ([], c :: rest)

/-- Numeric value of an ASCII digit character. -/
def digitVal (c : Char) : Nat := c.toNat - 48

/-- Python `int()` on a string of decimal digits. -/
def digitsToNat (ds : List Char) : Nat :=
  ds.foldl (fun a c => 10 * a + digitVal c) 0

/-- The ASCII digit character for `n < 10`. -/
def digitChar (n : Nat) : Char := Char.ofNat (48 + n)

/-- Decimal rendering, fuel-based so that it is structurally recursive
(the fuel `n + 1` always suffices, see `natDecimalAux_sound`). -/
def natDecimalAux : Nat → Nat → List Char
  | 0, _ => []
  | fuel + 1, n =>
    if n < 10 then [digitChar n]
    else natDecimalAux fuel (n / 10) ++ [digitChar (n % 10)]

/-- Python `str` on a nonnegative integer. -/
def natDecimal (n : Nat) : List Char := natDecimalAux (n + 1) n

/-- Python `str` on an integer (a `-` sign before the digits when negative). -/
def intDecimal (i : Int) : List Char :=
  if i < 0 then '-' :: natDecimal i.natAbs else natDecimal i.toNat

/-- The four captures of `ROLL_RE`: `n`, `sides`, `op` (the matched sign
character, when present) and `mod` (already defaulted to `0` when the
optional modifier group is absent, as in `parse_and_roll`). -/
structure ParsedRoll where
  n : Nat
  sides : Nat
  op : Option Char
  mod : Nat
deriving DecidableEq, Repr

/-- `ROLL_RE.match`.  The regex is
`^\s*(?P<n>\d{1,4})[dD](?P<sides>\d{1,5})(?:\s*(?P<op>[+\-])\s*(?P<mod>\d{1,6}))?\s*$`.
Because the pattern is anchored on both sides and every bounded digit
group is immediately followed by a non-digit requirement, greedy
matching with backtracking coincides with taking the maximal digit run
and failing when its length exceeds the bound: any shorter match leaves
a digit as the next character, which no continuation of the pattern can
consume.  Likewise, after the sides digits the optional modifier group
is committed to exactly when, after `\s*`, a `+` or `-` follows. -/
def rollMatch (expr : List Char) : Option ParsedRoll :=
  let s1 := skipWs expr
  let pn := takeDigits s1
  if pn.1.length < 1 ∨ 4 < pn.1.length then none
  else
    match pn.2 with
    | [] => none
    | c :: r2 =>
      if c = 'd' ∨ c = 'D' then
        let ps := takeDigits r2
        if ps.1.length < 1 ∨ 5 < ps.1.length then none
        else
          match skipWs ps.2 with
          | [] => some ⟨digitsToNat pn.1, digitsToNat ps.1, none, 0⟩
          | c2 :: r5 =>
            if c2 = '+' ∨ c2 = '-' then
              let pm := takeDigits (skipWs r5)
              if pm.1.length < 1 ∨ 6 < pm.1.length then none
              else if (skipWs pm.2).isEmpty then
                some ⟨digitsToNat pn.1, digitsToNat ps.1, some c2, digitsToNat pm.1⟩
              else none
            else none
      else none

def MAX_DICE : Nat := 500

def MAX_SIDES : Nat := 1000

/-- `ValueError` message for a grammar mismatch. -/
def errMalformed : List Char :=
  "Formato inválido. Usa algo como `6d6 + 2` ou `3d20`.".data

/-- `ValueError` message for a count out of range (the f-string renders
`MAX_DICE`). -/
def errCount : List Char :=
  "Quantidade de dados inválida (1–".data ++ natDecimal MAX_DICE ++ ").".data

/-- `ValueError` message for a sides value out of range (the f-string
renders `MAX_SIDES`). -/
def errSides : List Char :=
  "Lados inválidos (2–".data ++ natDecimal MAX_SIDES ++ ").".data

/-- `rolls = [random.randint(1, sides) for _ in range(n)]`, with the
random source modelled as the sampler `g`. -/
def rollsOf (g : Nat → Nat → Nat) (p : ParsedRoll) : List Nat :=
  (List.range p.n).map (fun i => g i p.sides)

/-- `subtotal = sum(rolls)`. -/
def subtotalOf (g : Nat → Nat → Nat) (p : ParsedRoll) : Nat :=
  (rollsOf g p).sum

/-- `total = subtotal`, then `+= mod` when `op == "+"` and `-= mod` when
`op == "-"`. -/
def totalOf (g : Nat → Nat → Nat) (p : ParsedRoll) : Int :=
  if p.op = some '+' then (subtotalOf g p : Int) + (p.mod : Int)
  else if p.op = some '-' then (subtotalOf g p : Int) - (p.mod : Int)
  else (subtotalOf g p : Int)

/-- The backtick character (from a string literal). -/
def bq : Char := List.headD ("`".data) ' '

/-- `spec = f"{n}d{sides}"`, extended with `f" {op} {mod}"` exactly when
`if op and mod:` holds, i.e. the sign was matched and the modifier is
nonzero. -/
def specOf (p : ParsedRoll) : List Char :=
  let base := natDecimal p.n ++ 'd' :: natDecimal p.sides
  match p.op with
  | some c => if p.mod ≠ 0 then base ++ ' ' :: c :: ' ' :: natDecimal p.mod else base
  | none => base

/-- ``spec_block = f"`[{spec}]`"``. -/
def spec_blockOf (p : ParsedRoll) : List Char :=
  bq :: '[' :: (specOf p ++ (']' :: [bq]))

/-- Python `", ".join` on rendered rolls. -/
def joinCommaSpace : List (List Char) → List Char
  | [] => []
  | [x] => x
  | x :: y :: xs => x ++ ',' :: ' ' :: joinCommaSpace (y :: xs)

/-- ``rolls_block = f"`[{', '.join(map(str, rolls))}]`"``. -/
def rolls_blockOf (g : Nat → Nat → Nat) (p : ParsedRoll) : List Char :=
  bq :: '[' :: (joinCommaSpace ((rollsOf g p).map natDecimal) ++ (']' :: [bq]))

def rolagemSep : List Char := " Rolagem: ".data

def resultadoSep : List Char := " Resultado: ".data

def rolagemLabel : List Char := "Rolagem: ".data

def resultadoLabel : List Char := "Resultado: ".data

/-- `msg = f"{spec_block} Rolagem: {rolls_block} Resultado: {total}"`. -/
def formatMsg (spec_block rolls_block : List Char) (total : Int) : List Char :=
  spec_block ++ rolagemSep ++ rolls_block ++ resultadoSep ++ intDecimal total

/-- `parse_and_roll` of `src/bot.py`: `Except.error` models the raised
`ValueError`, `Except.ok` the returned message. -/
def parse_and_roll (g : Nat → Nat → Nat) (expr : List Char) :
    Except (List Char) (List Char) :=
  match rollMatch expr with
  | none => .error errMalformed
  | some p =>
    if p.n < 1 ∨ MAX_DICE < p.n then .error errCount
    else if p.sides < 2 ∨ MAX_SIDES < p.sides then .error errSides
    else .ok (formatMsg (spec_blockOf p) (rolls_blockOf g p) (totalOf g p))

/-- A sampler that plays back a fixed list of rolls (`1` past its end),
used to model "the sampler forced to return" a given sequence. -/
def listSampler (l : List Nat) : Nat → Nat → Nat := fun i _ => l.getD i 1

deriving instance DecidableEq for Except

/-- Split at the first occurrence of `sep`: `some (before, after)` when
`sep` occurs, `none` otherwise (the building block for Python
`str.split`). -/
def splitFirst? (sep : List Char) : List Char → Option (List Char × List Char)
  | [] => if sep.isEmpty then some ([], []) else none
  | c :: rest =>
    if sep.isPrefixOf (c :: rest) then some ([], (c :: rest).drop sep.length)
    else (splitFirst? sep rest).map (fun p => (c :: p.1, p.2))

/-- Python `s.split(sep)[0]`: the part before the first occurrence of
`sep`, or all of `s` when `sep` does not occur. -/
def splitBefore (sep s : List Char) : List Char :=
  match splitFirst? sep s with
  | some p => p.1
  | none => s

/-- Python `s.split(sep)[1]` when `sep` occurs at least once in `s`
(`after` here is everything past the first occurrence): the part up to
the next occurrence of `sep`, or all of `after` when there is none. -/
def splitSecondOf (sep after : List Char) : List Char :=
  splitBefore sep after

/-- Python `s.replace(pat, repl)`: left-to-right, non-overlapping.
Fuel-based so that it is structurally recursive; the fuel `s.length + 1`
always suffices because every step consumes at least one character. -/
def pyReplaceAux : Nat → List Char → List Char → List Char → List Char
  | 0, _, _, s => s
  | fuel + 1, pat, repl, s =>
    match s with
    | [] => []
    | c :: rest =>
      if pat.isPrefixOf (c :: rest) then
        repl ++ pyReplaceAux fuel pat repl (rest.drop (pat.length - 1))
      else c :: pyReplaceAux fuel pat repl rest

def pyReplace (pat repl s : List Char) : List Char :=
  pyReplaceAux (s.length + 1) pat repl s

/-- The chunking loop `while text: send(text[:chunk]); text = text[chunk:]`.
Fuel-based so that it is structurally recursive; it is only used with
the chunk size `1700`, for which the fuel `s.length + 1` suffices. -/
def chunksOfAux : Nat → Nat → List Char → List (List Char)
  | 0, _, _ => []
  | fuel + 1, k, s =>
    if s.isEmpty then [] else s.take k :: chunksOfAux fuel k (s.drop k)

def chunksOf (k : Nat) (s : List Char) : List (List Char) :=
  chunksOfAux (s.length + 1) k s

/-- The re-parsing of an oversized formatted message in
`_send_roll_to_channel` (and identically in the two command handlers):
`header_part = msg.split(" Rolagem: ")[0]`,
`left = msg[len(header_part) + 1:]`, then inside `try`
`rolls_part = left.split(" Resultado: ")[0].replace("Rolagem: ", "")` and
`result_part = "Resultado: " + left.split(" Resultado: ")[1]`, with the
`except` fallback `rolls_part, result_part = "", msg` (the `IndexError`
of `[1]` fires exactly when `" Resultado: "` does not occur in `left`).
Returns `(header_part, rolls_part, result_part)`. -/
def splitPieces (msg : List Char) : List Char × List Char × List Char :=
  let header_part := splitBefore rolagemSep msg
  let left := msg.drop (header_part.length + 1)
  match splitFirst? resultadoSep left with
  | some pr =>
    (header_part, pyReplace rolagemLabel [] pr.1,
     resultadoLabel ++ splitSecondOf resultadoSep pr.2)
  | none => (header_part, [], msg)

/-- The ordered list of outbound messages `_send_roll_to_channel` sends
for a roll message `msg` (the optional extra `header` argument of the
Python function is `None` here): the message itself when it fits in
1900 characters, otherwise the header part, the 1700-character chunks
of the rolls part, and the result part. -/
def send_roll_to_channel (msg : List Char) : List (List Char) :=
  if msg.length ≤ 1900 then [msg]
  else
    (splitPieces msg).1 ::
      (chunksOf 1700 (splitPieces msg).2.1 ++ [(splitPieces msg).2.2])

/-- The sampler that always returns `1000`, used for a concrete
oversized roll. -/
def gBig : Nat → Nat → Nat := fun _ _ => 1000

/-- The parse of `500d1000`. -/
def pBig : ParsedRoll := ⟨500, 1000, none, 0⟩

/-! ### Character-class lemmas -/

theorem isDigitChar_toNat {c : Char} (h : isDigitChar c = true) :
    48 ≤ c.toNat ∧ c.toNat ≤ 57 := by
  simpa [isDigitChar] using h

theorem isSpaceChar_toNat {c : Char} (h : isSpaceChar c = true) :
    c.toNat = 32 ∨ c.toNat = 9 ∨ c.toNat = 10 ∨ c.toNat = 13 ∨
      c.toNat = 11 ∨ c.toNat = 12 := by
  simp [isSpaceChar] at h
  rcases h with ((((h | h) | h) | h) | h) | h <;> subst h <;> decide

theorem digit_char_ne {c d : Char} (hc : isDigitChar c = true)
    (hd : ¬ (48 ≤ d.toNat ∧ d.toNat ≤ 57)) : c ≠ d := by
  rintro rfl; exact hd (isDigitChar_toNat hc)

theorem space_char_ne {c d : Char} (hc : isSpaceChar c = true)
    (hd : 48 ≤ d.toNat ∧ d.toNat ≤ 122) : c ≠ d := by
  rintro rfl
  rcases isSpaceChar_toNat hc with h | h | h | h | h | h <;> omega

theorem isSpaceChar_of_digit {c : Char} (hc : isDigitChar c = true) :
    isSpaceChar c = false := by
  have hb := isDigitChar_toNat hc
  simp only [isSpaceChar, Bool.or_eq_false_iff, beq_eq_false_iff_ne]
  refine ⟨⟨⟨⟨⟨?_, ?_⟩, ?_⟩, ?_⟩, ?_⟩, ?_⟩ <;> (rintro rfl; revert hb; decide)

/-! ### Decimal rendering lemmas -/

theorem digitChar_toNat {n : Nat} (h : n < 10) : (digitChar n).toNat = 48 + n := by
  interval_cases n <;> decide

theorem isDigitChar_digitChar {n : Nat} (h : n < 10) :
    isDigitChar (digitChar n) = true := by
  interval_cases n <;> decide

theorem natDecimalAux_digits :
    ∀ fuel n, ∀ c ∈ natDecimalAux fuel n, ∃ m, m < 10 ∧ c = digitChar m := by
  intro fuel
  induction fuel with
  | zero => intro n c hc; simp [natDecimalAux] at hc
  | succ f ih =>
    intro n c hc
    rw [natDecimalAux] at hc
    split at hc
    · next h => exact ⟨n, h, by simpa using hc⟩
    · rcases List.mem_append.1 hc with h | h
      · exact ih _ c h
      · exact ⟨n % 10, Nat.mod_lt _ (by omega), by simpa using h⟩

theorem natDecimal_digits {n : Nat} : ∀ c ∈ natDecimal n, isDigitChar c = true := by
  intro c hc
  obtain ⟨m, hm, rfl⟩ := natDecimalAux_digits _ _ c hc
  exact isDigitChar_digitChar hm

theorem natDecimalAux_ne_nil : ∀ fuel n, n < fuel → natDecimalAux fuel n ≠ [] := by
  intro fuel
  induction fuel with
  | zero => omega
  | succ f ih => intro n _ ; rw [natDecimalAux]; split <;> simp

theorem natDecimal_ne_nil {n : Nat} : natDecimal n ≠ [] :=
  natDecimalAux_ne_nil _ _ (Nat.lt_succ_self n)

theorem digitsToNat_concat (a : List Char) (c : Char) :
    digitsToNat (a ++ [c]) = 10 * digitsToNat a + digitVal c := by
  simp [digitsToNat, List.foldl_append]

theorem natDecimalAux_toNat :
    ∀ fuel n, n < fuel → digitsToNat (natDecimalAux fuel n) = n := by
  intro fuel
  induction fuel with
  | zero => omega
  | succ f ih =>
    intro n hn
    rw [natDecimalAux]
    split
    · next h =>
      simp [digitsToNat, digitVal, digitChar_toNat h]
    · next h =>
      have h10 : 10 ≤ n := by omega
      have hrec : n / 10 < f := by
        have := Nat.div_lt_self (by omega : 0 < n) (by omega : 1 < 10)
        omega
      rw [digitsToNat_concat, ih _ hrec, digitVal,
        digitChar_toNat (Nat.mod_lt _ (by omega))]
      omega

theorem natDecimal_toNat (n : Nat) : digitsToNat (natDecimal n) = n :=
  natDecimalAux_toNat _ _ (Nat.lt_succ_self n)

theorem natDecimalAux_length :
    ∀ fuel n k, n < fuel → 0 < k → n < 10 ^ k →
      (natDecimalAux fuel n).length ≤ k := by
  intro fuel
  induction fuel with
  | zero => omega
  | succ f ih =>
    intro n k hn hk hpow
    rw [natDecimalAux]
    split
    · simpa using hk
    · next h =>
      have h10 : 10 ≤ n := by omega
      have hk2 : 2 ≤ k := by
        by_contra hlt
        have hk1 : k = 1 := by omega
        subst hk1
        simp at hpow
        omega
      have hrec : n / 10 < f := by
        have := Nat.div_lt_self (by omega : 0 < n) (by omega : 1 < 10)
        omega
      have hpow' : n / 10 < 10 ^ (k - 1) := by
        rw [Nat.div_lt_iff_lt_mul (by omega : 0 < 10)]
        calc n < 10 ^ k := hpow
        _ = 10 ^ (k - 1) * 10 := by
            rw [← Nat.pow_succ]
            congr 1
            omega
      have := ih (n / 10) (k - 1) hrec (by omega) hpow'
      simp only [List.length_append, List.length_cons, List.length_nil]
      omega

theorem natDecimal_length_le {n k : Nat} (hk : 0 < k) (h : n < 10 ^ k) :
    (natDecimal n).length ≤ k :=
  natDecimalAux_length _ _ _ (Nat.lt_succ_self n) hk h

theorem digitsToNat_aux_lt :
    ∀ ds : List Char, ∀ a : Nat, (∀ c ∈ ds, isDigitChar c = true) →
      ds.foldl (fun a c => 10 * a + digitVal c) a < (a + 1) * 10 ^ ds.length := by
  intro ds
  induction ds with
  | nil => intro a _; simp
  | cons c t ih =>
    intro a hall
    have hv : digitVal c ≤ 9 := by
      have := isDigitChar_toNat (hall c (by simp))
      simp [digitVal]; omega
    have := ih (10 * a + digitVal c) (fun x hx => hall x (by simp [hx]))
    calc (c :: t).foldl (fun a c => 10 * a + digitVal c) a
        = t.foldl (fun a c => 10 * a + digitVal c) (10 * a + digitVal c) := by
          simp [List.foldl_cons]
    _ < (10 * a + digitVal c + 1) * 10 ^ t.length := this
    _ ≤ (a + 1) * 10 ^ (c :: t).length := by
        simp only [List.length_cons, Nat.pow_succ]
        have : 10 * a + digitVal c + 1 ≤ (a + 1) * 10 := by omega
        calc (10 * a + digitVal c + 1) * 10 ^ t.length
            ≤ (a + 1) * 10 * 10 ^ t.length := Nat.mul_le_mul_right _ this
        _ = (a + 1) * (10 ^ t.length * 10) := by ring

theorem digitsToNat_lt {ds : List Char} (h : ∀ c ∈ ds, isDigitChar c = true) :
    digitsToNat ds < 10 ^ ds.length := by
  simpa [digitsToNat] using digitsToNat_aux_lt ds 0 h

/-! ### `skipWs` and `takeDigits` lemmas -/

theorem skipWs_decomp : ∀ s : List Char,
    ∃ w, s = w ++ skipWs s ∧ ∀ c ∈ w, isSpaceChar c = true := by
  intro s
  induction s with
  | nil => exact ⟨[], rfl, by simp⟩
  | cons c t ih =>
    by_cases h : isSpaceChar c = true
    · obtain ⟨w, hw, hall⟩ := ih
      refine ⟨c :: w, ?_, ?_⟩
      · simp [skipWs, h, ← hw]
      · intro x hx
        rcases List.mem_cons.1 hx with rfl | hx
        · exact h
        · exact hall x hx
    · exact ⟨[], by simp [skipWs, h], by simp⟩

theorem skipWs_cons_of_neg {c : Char} {t : List Char} (h : isSpaceChar c = false) :
    skipWs (c :: t) = c :: t := by
  simp [skipWs, h]

theorem takeDigits_decomp : ∀ s : List Char,
    s = (takeDigits s).1 ++ (takeDigits s).2 ∧
      ∀ c ∈ (takeDigits s).1, isDigitChar c = true := by
  intro s
  induction s with
  | nil => simp [takeDigits]
  | cons c t ih =>
    by_cases h : isDigitChar c = true
    · obtain ⟨hw, hall⟩ := ih
      refine ⟨?_, ?_⟩
      · simp only [takeDigits, h, if_pos]
        simpa using hw
      · intro x hx
        simp only [takeDigits, h, if_pos] at hx
        rcases List.mem_cons.1 hx with rfl | hx
        · exact h
        · exact hall x hx
    · simp [takeDigits, h]

theorem takeDigits_all {a : List Char} (h : ∀ c ∈ a, isDigitChar c = true) :
    takeDigits a = (a, []) := by
  induction a with
  | nil => rfl
  | cons c t ih =>
    have hc : isDigitChar c = true := h c (by simp)
    have := ih (fun x hx => h x (by simp [hx]))
    simp [takeDigits, hc, this]

theorem takeDigits_append_stop {a : List Char} (h : ∀ c ∈ a, isDigitChar c = true)
    {d : Char} {t : List Char} (hd : isDigitChar d = false) :
    takeDigits (a ++ d :: t) = (a, d :: t) := by
  induction a with
  | nil => simp [takeDigits, hd]
  | cons c a' ih =>
    have hc : isDigitChar c = true := h c (by simp)
    have := ih (fun x hx => h x (by simp [hx]))
    simp [takeDigits, hc, this]

/-! ### `splitFirst?`, `pyReplace`, `chunksOf` lemmas -/

theorem isPrefixOf_append_self : ∀ l b : List Char, l.isPrefixOf (l ++ b) = true := by
  intro l
  induction l with
  | nil => intro b; simp [List.isPrefixOf]
  | cons c t ih => intro b; simp [List.isPrefixOf, ih]

theorem splitFirst?_append_self {sep b : List Char} (hsep : sep ≠ []) :
    splitFirst? sep (sep ++ b) = some ([], b) := by
  obtain ⟨c, s', rfl⟩ := List.exists_cons_of_ne_nil hsep
  have hpre : (c :: s').isPrefixOf (c :: (s' ++ b)) = true := isPrefixOf_append_self _ b
  rw [show (c :: s') ++ b = c :: (s' ++ b) from rfl, splitFirst?]
  simp only [hpre, if_true]
  rw [show (c :: s').length = s'.length + 1 from rfl, List.drop_succ_cons, List.drop_left]

theorem splitFirst?_boundary {x y : Char} {rest a b : List Char}
    (hy : y ∉ a.drop 1) (hxy : y ≠ x) :
    splitFirst? (x :: y :: rest) (a ++ (x :: y :: rest) ++ b) = some (a, b) := by
  induction a with
  | nil => exact splitFirst?_append_self (by simp)
  | cons c a' ih =>
    have hy' : y ∉ a' := by simpa using hy
    have hpre : (x :: y :: rest).isPrefixOf (c :: (a' ++ (x :: y :: rest) ++ b)) = false := by
      by_cases hxc : x = c
      · subst hxc
        cases a' with
        | nil =>
          simp only [List.nil_append, List.cons_append]
          simp [List.isPrefixOf, beq_eq_false_iff_ne.mpr hxy]
        | cons c' a'' =>
          have hyc' : y ≠ c' := fun e => hy' (e ▸ List.mem_cons_self c' a'')
          simp only [List.cons_append]
          simp [List.isPrefixOf, beq_eq_false_iff_ne.mpr hyc']
      · simp [List.isPrefixOf, beq_eq_false_iff_ne.mpr hxc]
    have hy'' : y ∉ a'.drop 1 := fun hx => hy' (List.drop_subset 1 a' hx)
    rw [show (c :: a') ++ (x :: y :: rest) ++ b = c :: (a' ++ (x :: y :: rest) ++ b) by simp,
      splitFirst?]
    simp only [hpre, Bool.false_eq_true, if_false, ih hy'']
    rfl

theorem splitFirst?_none_of_not_mem {x : Char} {xs s : List Char} (h : x ∉ s) :
    splitFirst? (x :: xs) s = none := by
  induction s with
  | nil => rfl
  | cons c t ih =>
    have hxc : x ≠ c := fun e => h (e ▸ List.mem_cons_self c t)
    have : (x :: xs).isPrefixOf (c :: t) = false := by
      simp [List.isPrefixOf, beq_eq_false_iff_ne, hxc]
    rw [splitFirst?, if_neg (by simp [this]), ih (fun hx => h (List.mem_cons_of_mem c hx))]
    rfl

theorem pyReplaceAux_skip {x : Char} {pr repl : List Char} :
    ∀ fuel (s : List Char), x ∉ s → pyReplaceAux fuel (x :: pr) repl s = s := by
  intro fuel
  induction fuel with
  | zero => intro s _; rfl
  | succ f ih =>
    intro s hs
    cases s with
    | nil => rfl
    | cons c t =>
      have hxc : x ≠ c := fun e => hs (e ▸ List.mem_cons_self c t)
      have hpre : (x :: pr).isPrefixOf (c :: t) = false := by
        simp [List.isPrefixOf, beq_eq_false_iff_ne, hxc]
      rw [pyReplaceAux]
      simp only [hpre, Bool.false_eq_true, if_false]
      rw [ih t (fun hx => hs (List.mem_cons_of_mem c hx))]

theorem pyReplaceAux_strip {x : Char} {pr repl u : List Char} (h : x ∉ u)
    (fuel : Nat) (hf : 0 < fuel) :
    pyReplaceAux fuel (x :: pr) repl (x :: (pr ++ u)) = repl ++ u := by
  obtain ⟨f, rfl⟩ : ∃ f, fuel = f + 1 := ⟨fuel - 1, by omega⟩
  have hpre : (x :: pr).isPrefixOf (x :: (pr ++ u)) = true := isPrefixOf_append_self _ u
  rw [pyReplaceAux]
  simp only [hpre, if_true]
  rw [show (x :: pr).length - 1 = pr.length from rfl, List.drop_left,
    pyReplaceAux_skip f u h]

theorem pyReplace_label {u : List Char} (h : 'R' ∉ u) :
    pyReplace rolagemLabel [] (rolagemLabel ++ u) = u := by
  have hlab : rolagemLabel = 'R' :: "olagem: ".data := by decide
  rw [pyReplace, hlab, show ('R' :: "olagem: ".data) ++ u = 'R' :: ("olagem: ".data ++ u)
    from rfl]
  rw [pyReplaceAux_strip h _ (by omega)]
  rfl

theorem chunksOfAux_flatten {k : Nat} (hk : 0 < k) :
    ∀ fuel (s : List Char), s.length < fuel → (chunksOfAux fuel k s).flatten = s := by
  intro fuel
  induction fuel with
  | zero => omega
  | succ f ih =>
    intro s hs
    rw [chunksOfAux]
    by_cases hnil : s.isEmpty
    · simp_all [List.isEmpty_iff]
    · have hne : s ≠ [] := by simpa [List.isEmpty_iff] using hnil
      have hlen : (s.drop k).length < f := by
        have h0 : 0 < s.length := List.length_pos.2 hne
        simp only [List.length_drop]
        omega
      simp only [hnil, Bool.false_eq_true, if_false, List.flatten_cons, ih _ hlen]
      exact List.take_append_drop k s

theorem chunksOf_flatten {k : Nat} (hk : 0 < k) (s : List Char) :
    (chunksOf k s).flatten = s :=
  chunksOfAux_flatten hk _ s (Nat.lt_succ_self _)

theorem chunksOfAux_length_le {k : Nat} :
    ∀ fuel (s : List Char), ∀ c ∈ chunksOfAux fuel k s, c.length ≤ k := by
  intro fuel
  induction fuel with
  | zero => intro s c hc; simp [chunksOfAux] at hc
  | succ f ih =>
    intro s c hc
    rw [chunksOfAux] at hc
    split at hc
    · simp at hc
    · rcases List.mem_cons.1 hc with rfl | hc
      · simp
      · exact ih _ c hc

theorem chunksOf_length_le {k : Nat} {s : List Char} :
    ∀ c ∈ chunksOf k s, c.length ≤ k :=
  chunksOfAux_length_le _ s

theorem drop_append_cons (a : List Char) (c : Char) (t : List Char) :
    (a ++ c :: t).drop (a.length + 1) = t := by
  induction a with
  | nil => simp
  | cons x a' ih => simp [ih]

/-! ### Character content of the formatted segments -/

theorem mem_joinCommaSpace {ls : List (List Char)} {c : Char}
    (h : c ∈ joinCommaSpace ls) : c = ',' ∨ c = ' ' ∨ ∃ x ∈ ls, c ∈ x := by
  induction ls with
  | nil => simp [joinCommaSpace] at h
  | cons x t ih =>
    cases t with
    | nil =>
      right; right
      exact ⟨x, by simp, by simpa [joinCommaSpace] using h⟩
    | cons y t' =>
      rw [joinCommaSpace] at h
      rcases List.mem_append.1 h with h | h
      · right; right; exact ⟨x, by simp, h⟩
      · rcases List.mem_cons.1 h with rfl | h
        · exact Or.inl rfl
        · rcases List.mem_cons.1 h with rfl | h
          · exact Or.inr (Or.inl rfl)
          · rcases ih h with h | h | ⟨z, hz, hcz⟩
            · exact Or.inl h
            · exact Or.inr (Or.inl h)
            · exact Or.inr (Or.inr ⟨z, List.mem_cons_of_mem x hz, hcz⟩)

theorem notR_rolls_block (g : Nat → Nat → Nat) (p : ParsedRoll) :
    'R' ∉ rolls_blockOf g p := by
  intro h
  simp only [rolls_blockOf, List.mem_cons, List.mem_append] at h
  rcases h with h | h | h | h
  · exact absurd h (by decide)
  · exact absurd h (by decide)
  · rcases mem_joinCommaSpace h with h | h | ⟨x, hx, hcx⟩
    · exact absurd h (by decide)
    · exact absurd h (by decide)
    · obtain ⟨m, hm, rfl⟩ := List.mem_map.1 hx
      exact absurd (isDigitChar_toNat (natDecimal_digits _ hcx)) (by decide)
  · rcases h with h | h | h
    · exact absurd h (by decide)
    · exact absurd h (by decide)
    · simp at h

theorem mem_specOf {p : ParsedRoll} {c : Char} (h : c ∈ specOf p) :
    isDigitChar c = true ∨ c = 'd' ∨ c = ' ' ∨ ∃ oc, p.op = some oc ∧ c = oc := by
  rcases hpop : p.op with _ | oc
  · simp only [specOf, hpop] at h
    rcases List.mem_append.1 h with h | h
    · exact Or.inl (natDecimal_digits _ h)
    · rcases List.mem_cons.1 h with rfl | h
      · exact Or.inr (Or.inl rfl)
      · exact Or.inl (natDecimal_digits _ h)
  · simp only [specOf, hpop] at h
    split at h
    · rcases List.mem_append.1 h with h | h
      · rcases List.mem_append.1 h with h | h
        · exact Or.inl (natDecimal_digits _ h)
        · rcases List.mem_cons.1 h with rfl | h
          · exact Or.inr (Or.inl rfl)
          · exact Or.inl (natDecimal_digits _ h)
      · rcases List.mem_cons.1 h with rfl | h
        · exact Or.inr (Or.inr (Or.inl rfl))
        · rcases List.mem_cons.1 h with rfl | h
          · exact Or.inr (Or.inr (Or.inr ⟨c, rfl, rfl⟩))
          · rcases List.mem_cons.1 h with rfl | h
            · exact Or.inr (Or.inr (Or.inl rfl))
            · exact Or.inl (natDecimal_digits _ h)
    · rcases List.mem_append.1 h with h | h
      · exact Or.inl (natDecimal_digits _ h)
      · rcases List.mem_cons.1 h with rfl | h
        · exact Or.inr (Or.inl rfl)
        · exact Or.inl (natDecimal_digits _ h)

theorem notR_spec_block {p : ParsedRoll}
    (hop : p.op = none ∨ p.op = some '+' ∨ p.op = some '-') :
    'R' ∉ spec_blockOf p := by
  intro h
  simp only [spec_blockOf, List.mem_cons, List.mem_append] at h
  rcases h with h | h | h | h
  · exact absurd h (by decide)
  · exact absurd h (by decide)
  · rcases mem_specOf h with h | h | h | ⟨oc, hoc, rfl⟩
    · exact absurd (isDigitChar_toNat h) (by decide)
    · exact absurd h (by decide)
    · exact absurd h (by decide)
    · rcases hop with hop | hop | hop <;> rw [hop] at hoc
      · exact absurd hoc (by simp)
      · exact absurd (Option.some.inj hoc).symm (by decide)
      · exact absurd (Option.some.inj hoc).symm (by decide)
  · rcases h with h | h | h
    · exact absurd h (by decide)
    · exact absurd h (by decide)
    · simp at h

theorem notSpace_intDecimal (i : Int) : ' ' ∉ intDecimal i := by
  intro h
  rw [intDecimal] at h
  split at h
  · rcases List.mem_cons.1 h with h | h
    · exact absurd h (by decide)
    · exact absurd (isDigitChar_toNat (natDecimal_digits _ h)) (by decide)
  · exact absurd (isDigitChar_toNat (natDecimal_digits _ h)) (by decide)

/-! ### The splitter on a well-formed formatted message -/

theorem splitPieces_format {S R T : List Char} (hRS : 'R' ∉ S) (hRR : 'R' ∉ R)
    (hT : ' ' ∉ T) :
    splitPieces (S ++ rolagemSep ++ R ++ resultadoSep ++ T)
      = (S, R, resultadoLabel ++ T) := by
  have hsep1 : rolagemSep = ' ' :: 'R' :: "olagem: ".data := by decide
  have hsep1' : rolagemSep = ' ' :: rolagemLabel := by decide
  have hlab : rolagemLabel = 'R' :: "olagem: ".data := by decide
  have hsep2 : resultadoSep = ' ' :: 'R' :: "esultado: ".data := by decide
  have h1 : splitFirst? rolagemSep (S ++ rolagemSep ++ R ++ resultadoSep ++ T)
      = some (S, R ++ resultadoSep ++ T) := by
    have hshape : S ++ rolagemSep ++ R ++ resultadoSep ++ T
        = S ++ (' ' :: 'R' :: "olagem: ".data) ++ (R ++ resultadoSep ++ T) := by
      rw [← hsep1]; simp [List.append_assoc]
    rw [hshape, hsep1]
    exact splitFirst?_boundary
      (fun hx => hRS (List.drop_subset 1 S hx)) (by decide)
  have h2 : splitBefore rolagemSep (S ++ rolagemSep ++ R ++ resultadoSep ++ T) = S := by
    rw [splitBefore, h1]
  have h3 : (S ++ rolagemSep ++ R ++ resultadoSep ++ T).drop (S.length + 1)
      = rolagemLabel ++ (R ++ resultadoSep ++ T) := by
    have hshape : S ++ rolagemSep ++ R ++ resultadoSep ++ T
        = S ++ ' ' :: (rolagemLabel ++ (R ++ resultadoSep ++ T)) := by
      rw [hsep1']; simp [List.append_assoc]
    rw [hshape, drop_append_cons]
  have h4 : splitFirst? resultadoSep (rolagemLabel ++ (R ++ resultadoSep ++ T))
      = some (rolagemLabel ++ R, T) := by
    have hshape : rolagemLabel ++ (R ++ resultadoSep ++ T)
        = (rolagemLabel ++ R) ++ (' ' :: 'R' :: "esultado: ".data) ++ T := by
      rw [← hsep2]; simp [List.append_assoc]
    rw [hshape, hsep2]
    refine splitFirst?_boundary ?_ (by decide)
    intro hx
    rw [hlab] at hx
    simp only [List.cons_append, List.drop_succ_cons, List.drop_zero, List.nil_append,
      List.mem_cons] at hx
    rcases hx with h | h | h | h | h | h | h | h | h
    · exact absurd h (by decide)
    · exact absurd h (by decide)
    · exact absurd h (by decide)
    · exact absurd h (by decide)
    · exact absurd h (by decide)
    · exact absurd h (by decide)
    · exact absurd h (by decide)
    · exact absurd h (by decide)
    · exact hRR h
  have h5 : pyReplace rolagemLabel [] (rolagemLabel ++ R) = R := pyReplace_label hRR
  have h6 : splitSecondOf resultadoSep T = T := by
    rw [splitSecondOf, splitBefore, hsep2, splitFirst?_none_of_not_mem hT]
  simp only [splitPieces, h2, h3, h4, h5, h6]

theorem send_format_long {S R T : List Char} (hRS : 'R' ∉ S) (hRR : 'R' ∉ R)
    (hT : ' ' ∉ T)
    (hlong : 1900 < (S ++ rolagemSep ++ R ++ resultadoSep ++ T).length) :
    send_roll_to_channel (S ++ rolagemSep ++ R ++ resultadoSep ++ T)
      = S :: (chunksOf 1700 R ++ [resultadoLabel ++ T]) := by
  rw [send_roll_to_channel, if_neg (by omega), splitPieces_format hRS hRR hT]

/-! ### Inversion of `rollMatch` -/

/-- Full decomposition of an input accepted by `ROLL_RE`, following the
groups of the pattern. -/
theorem rollMatch_decomp {expr : List Char} {p : ParsedRoll}
    (h : rollMatch expr = some p) :
    ∃ w1 nds dc sds rest2,
      expr = w1 ++ nds ++ dc :: (sds ++ rest2)
      ∧ (∀ c ∈ w1, isSpaceChar c = true)
      ∧ (∀ c ∈ nds, isDigitChar c = true) ∧ 1 ≤ nds.length ∧ nds.length ≤ 4
      ∧ (dc = 'd' ∨ dc = 'D')
      ∧ (∀ c ∈ sds, isDigitChar c = true) ∧ 1 ≤ sds.length ∧ sds.length ≤ 5
      ∧ p.n = digitsToNat nds ∧ p.sides = digitsToNat sds
      ∧ ((p.op = none ∧ p.mod = 0 ∧ ∀ c ∈ rest2, isSpaceChar c = true)
         ∨ (∃ w2 oc w3 mds w4,
             rest2 = w2 ++ oc :: (w3 ++ mds ++ w4)
             ∧ (∀ c ∈ w2, isSpaceChar c = true)
             ∧ (oc = '+' ∨ oc = '-')
             ∧ (∀ c ∈ w3, isSpaceChar c = true)
             ∧ (∀ c ∈ mds, isDigitChar c = true) ∧ 1 ≤ mds.length ∧ mds.length ≤ 6
             ∧ (∀ c ∈ w4, isSpaceChar c = true)
             ∧ p.op = some oc ∧ p.mod = digitsToNat mds)) := by
  obtain ⟨w1, hw1, hw1s⟩ := skipWs_decomp expr
  obtain ⟨hs1, hs1d⟩ := takeDigits_decomp (skipWs expr)
  simp only [rollMatch] at h
  split at h
  · exact absurd h (by simp)
  · next hlen1 =>
    split at h
    · exact absurd h (by simp)
    · next dc r2 hA2 =>
      split at h
      · next hdc =>
        obtain ⟨hr2, hr2d⟩ := takeDigits_decomp r2
        split at h
        · exact absurd h (by simp)
        · next hlen2 =>
          obtain ⟨w2, hw2, hw2s⟩ := skipWs_decomp (takeDigits r2).2
          split at h
          · next hws =>
            obtain rfl : (⟨digitsToNat (takeDigits (skipWs expr)).1,
                digitsToNat (takeDigits r2).1, none, 0⟩ : ParsedRoll) = p := by
              injection h
            refine ⟨w1, (takeDigits (skipWs expr)).1, dc, (takeDigits r2).1,
              (takeDigits r2).2, ?_, hw1s, hs1d, by omega, by omega, hdc,
              hr2d, by omega, by omega, rfl, rfl, Or.inl ⟨rfl, rfl, ?_⟩⟩
            · calc expr = w1 ++ skipWs expr := hw1
                _ = w1 ++ ((takeDigits (skipWs expr)).1 ++ (takeDigits (skipWs expr)).2) := by
                    rw [← hs1]
                _ = w1 ++ ((takeDigits (skipWs expr)).1 ++ (dc :: r2)) := by rw [hA2]
                _ = w1 ++ ((takeDigits (skipWs expr)).1
                      ++ (dc :: ((takeDigits r2).1 ++ (takeDigits r2).2))) := by
                    conv_lhs => rw [hr2]
                _ = w1 ++ (takeDigits (skipWs expr)).1
                      ++ dc :: ((takeDigits r2).1 ++ (takeDigits r2).2) := by
                    simp [List.append_assoc]
            · intro c hc
              rw [hw2, hws, List.append_nil] at hc
              exact hw2s c hc
          · next c2 r5 hws =>
            split at h
            · next hc2 =>
              obtain ⟨w3, hw3, hw3s⟩ := skipWs_decomp r5
              obtain ⟨hm, hmd⟩ := takeDigits_decomp (skipWs r5)
              split at h
              · exact absurd h (by simp)
              · next hlen3 =>
                obtain ⟨w4, hw4, hw4s⟩ := skipWs_decomp (takeDigits (skipWs r5)).2
                split at h
                · next hemp =>
                  obtain rfl : (⟨digitsToNat (takeDigits (skipWs expr)).1,
                      digitsToNat (takeDigits r2).1, some c2,
                      digitsToNat (takeDigits (skipWs r5)).1⟩ : ParsedRoll) = p := by
                    injection h
                  have hw4nil : (takeDigits (skipWs r5)).2 = w4 := by
                    rw [List.isEmpty_iff] at hemp
                    rw [hw4, hemp, List.append_nil]
                  refine ⟨w1, (takeDigits (skipWs expr)).1, dc, (takeDigits r2).1,
                    (takeDigits r2).2, ?_, hw1s, hs1d, by omega, by omega, hdc,
                    hr2d, by omega, by omega, rfl, rfl,
                    Or.inr ⟨w2, c2, w3, (takeDigits (skipWs r5)).1, w4, ?_,
                      hw2s, hc2, hw3s, hmd, by omega, by omega,
                      fun c hc => hw4s c (hw4nil ▸ hc), rfl, rfl⟩⟩
                  · calc expr = w1 ++ skipWs expr := hw1
                      _ = w1 ++ ((takeDigits (skipWs expr)).1
                            ++ (takeDigits (skipWs expr)).2) := by rw [← hs1]
                      _ = w1 ++ ((takeDigits (skipWs expr)).1 ++ (dc :: r2)) := by rw [hA2]
                      _ = w1 ++ ((takeDigits (skipWs expr)).1
                            ++ (dc :: ((takeDigits r2).1 ++ (takeDigits r2).2))) := by
                          conv_lhs => rw [hr2]
                      _ = w1 ++ (takeDigits (skipWs expr)).1
                            ++ dc :: ((takeDigits r2).1 ++ (takeDigits r2).2) := by
                          simp [List.append_assoc]
                  · calc (takeDigits r2).2
                        = w2 ++ skipWs (takeDigits r2).2 := hw2
                      _ = w2 ++ (c2 :: r5) := by rw [hws]
                      _ = w2 ++ (c2 :: (w3 ++ skipWs r5)) := by conv_lhs => rw [hw3]
                      _ = w2 ++ (c2 :: (w3 ++ ((takeDigits (skipWs r5)).1
                            ++ (takeDigits (skipWs r5)).2))) := by conv_lhs => rw [hm]
                      _ = w2 ++ (c2 :: (w3 ++ ((takeDigits (skipWs r5)).1 ++ w4))) := by
                          rw [hw4nil]
                      _ = w2 ++ c2 :: (w3 ++ (takeDigits (skipWs r5)).1 ++ w4) := by
                          simp [List.append_assoc]
                · exact absurd h (by simp)
            · exact absurd h (by simp)
      · exact absurd h (by simp)

/-! ### Consequences of a successful match -/

theorem rollMatch_op_cases {expr : List Char} {p : ParsedRoll}
    (h : rollMatch expr = some p) :
    p.op = none ∨ p.op = some '+' ∨ p.op = some '-' := by
  obtain ⟨w1, nds, dc, sds, rest2, heq, h1, h2, h3, h4, h5, h6, h7, h8, h9, h10, hbr⟩ :=
    rollMatch_decomp h
  rcases hbr with ⟨hop, _, _⟩ | ⟨w2, oc, w3, mds, w4, _, _, hoc, _, _, _, _, _, hop, _⟩
  · exact Or.inl hop
  · rcases hoc with rfl | rfl
    · exact Or.inr (Or.inl hop)
    · exact Or.inr (Or.inr hop)

theorem rollMatch_mod_lt {expr : List Char} {p : ParsedRoll}
    (h : rollMatch expr = some p) : p.mod < 1000000 := by
  obtain ⟨w1, nds, dc, sds, rest2, heq, h1, h2, h3, h4, h5, h6, h7, h8, h9, h10, hbr⟩ :=
    rollMatch_decomp h
  rcases hbr with ⟨_, hmod, _⟩ | ⟨w2, oc, w3, mds, w4, _, _, _, _, hmd, hm1, hm6, _, _, hmod⟩
  · omega
  · rw [hmod]
    calc digitsToNat mds < 10 ^ mds.length := digitsToNat_lt hmd
      _ ≤ 10 ^ 6 := Nat.pow_le_pow_right (by omega) hm6
      _ = 1000000 := by norm_num

theorem parse_and_roll_ok {g : Nat → Nat → Nat} {expr msg : List Char}
    (h : parse_and_roll g expr = .ok msg) :
    ∃ p, rollMatch expr = some p ∧ 1 ≤ p.n ∧ p.n ≤ 500 ∧ 2 ≤ p.sides ∧ p.sides ≤ 1000
      ∧ msg = formatMsg (spec_blockOf p) (rolls_blockOf g p) (totalOf g p) := by
  have hD : MAX_DICE = 500 := rfl
  have hS : MAX_SIDES = 1000 := rfl
  rw [parse_and_roll] at h
  split at h
  · exact absurd h (by simp)
  · next p heq =>
    split at h
    · exact absurd h (by simp)
    · next hc =>
      split at h
      · exact absurd h (by simp)
      · next hs =>
        refine ⟨p, heq, by omega, by omega, by omega, by omega, ?_⟩
        exact (Except.ok.inj h).symm

/-! ### Length bounds for the split pieces -/

theorem spec_block_length_le {p : ParsedRoll} (hn : p.n ≤ 500) (hs : p.sides ≤ 1000)
    (hm : p.mod < 1000000) : (spec_blockOf p).length ≤ 21 := by
  have h3 : (natDecimal p.n).length ≤ 3 :=
    natDecimal_length_le (by omega) (by rw [show (10:Nat) ^ 3 = 1000 from by norm_num]; omega)
  have h4 : (natDecimal p.sides).length ≤ 4 :=
    natDecimal_length_le (by omega) (by rw [show (10:Nat) ^ 4 = 10000 from by norm_num]; omega)
  have h6 : (natDecimal p.mod).length ≤ 6 :=
    natDecimal_length_le (by omega) (by rw [show (10:Nat) ^ 6 = 1000000 from by norm_num]; omega)
  have hspec : (specOf p).length ≤ 17 := by
    rcases hpop : p.op with _ | oc
    · simp only [specOf, hpop, List.length_append, List.length_cons]
      omega
    · simp only [specOf, hpop]
      split
      · simp only [List.length_append, List.length_cons]
        omega
      · simp only [List.length_append, List.length_cons]
        omega
  simp only [spec_blockOf, List.length_cons, List.length_append]
  simp at hspec ⊢
  omega

theorem intDecimal_length_le {i : Int} (hlo : -1000000 < i) (hhi : i < 10000000) :
    (intDecimal i).length ≤ 8 := by
  rw [intDecimal]
  split
  · next hneg =>
    have habs : i.natAbs < 1000000 := by omega
    have h6 : (natDecimal i.natAbs).length ≤ 6 :=
      natDecimal_length_le (by omega) (by rw [show (10:Nat) ^ 6 = 1000000 from by norm_num]; omega)
    simp only [List.length_cons]
    omega
  · have htN : i.toNat < 10000000 := by omega
    have h7 : (natDecimal i.toNat).length ≤ 7 :=
      natDecimal_length_le (by omega)
        (by rw [show (10:Nat) ^ 7 = 10000000 from by norm_num]; omega)
    omega

theorem subtotal_le {g : Nat → Nat → Nat} {p : ParsedRoll}
    (hg : ∀ i s, 1 ≤ s → 1 ≤ g i s ∧ g i s ≤ s) (hs2 : 2 ≤ p.sides) :
    subtotalOf g p ≤ p.n * p.sides := by
  have hb : ∀ x ∈ rollsOf g p, x ≤ p.sides := by
    intro x hx
    simp only [rollsOf, List.mem_map, List.mem_range] at hx
    obtain ⟨i, _, rfl⟩ := hx
    exact (hg i p.sides (by omega)).2
  have := List.sum_le_card_nsmul (rollsOf g p) p.sides hb
  simpa [subtotalOf, rollsOf, smul_eq_mul] using this

theorem totalOf_bounds {g : Nat → Nat → Nat} {p : ParsedRoll}
    (hg : ∀ i s, 1 ≤ s → 1 ≤ g i s ∧ g i s ≤ s)
    (hn2 : p.n ≤ 500) (hs2 : 2 ≤ p.sides) (hs3 : p.sides ≤ 1000)
    (hm : p.mod < 1000000) :
    -1000000 < totalOf g p ∧ totalOf g p < 10000000 := by
  have hsub : subtotalOf g p ≤ 500000 := by
    calc subtotalOf g p ≤ p.n * p.sides := subtotal_le hg hs2
      _ ≤ 500 * 1000 := Nat.mul_le_mul hn2 hs3
      _ = 500000 := by norm_num
  rw [totalOf]
  split
  · constructor <;> [omega; omega]
  · split
    · constructor <;> [omega; omega]
    · constructor <;> [omega; omega]

/-! ### Claim theorems -/

/-- C1: for input `3d20` with the sampler returning `[5, 12, 20]`,
`parse_and_roll` produces exactly the message
`` `[3d20]` Rolagem: `[5, 12, 20]` Resultado: 37 ``; for `6d6 + 2` with
the sampler returning `[1,2,3,4,5,6]` it produces exactly
`` `[6d6 + 2]` Rolagem: `[1, 2, 3, 4, 5, 6]` Resultado: 23 ``; and every
successful message follows the template
`<spec segment> Rolagem: <rolls segment> Resultado: <total>` with the
connective words verbatim. -/
theorem C1_message_template :
    parse_and_roll (listSampler [5, 12, 20]) ("3d20".data)
      = .ok ("`[3d20]` Rolagem: `[5, 12, 20]` Resultado: 37".data)
    ∧ parse_and_roll (listSampler [1, 2, 3, 4, 5, 6]) ("6d6 + 2".data)
      = .ok ("`[6d6 + 2]` Rolagem: `[1, 2, 3, 4, 5, 6]` Resultado: 23".data)
    ∧ ∀ (g : Nat → Nat → Nat) (expr msg : List Char),
        parse_and_roll g expr = .ok msg →
        ∃ s r t, msg = s ++ " Rolagem: ".data ++ r ++ " Resultado: ".data ++ t := by
  refine ⟨by decide, by decide, ?_⟩
  intro g expr msg h
  obtain ⟨p, _, _, _, _, _, hmsg⟩ := parse_and_roll_ok h
  exact ⟨spec_blockOf p, rolls_blockOf g p, intDecimal (totalOf g p), by
    rw [hmsg, formatMsg]; rfl⟩

/-- Witness for C1: the template part applied at the concrete input
`3d6` with the constant sampler `1`. -/
theorem C1_message_template_witness :
    ∃ s r t, ("`[3d6]` Rolagem: `[1, 1, 1]` Resultado: 3".data)
      = s ++ " Rolagem: ".data ++ r ++ " Resultado: ".data ++ t :=
  C1_message_template.2.2 (fun _ _ => 1) ("3d6".data)
    ("`[3d6]` Rolagem: `[1, 1, 1]` Resultado: 3".data) (by decide)

/-- C4 counterexample: `3 d 6` (whitespace around the `d` separator) is
NOT accepted by `ROLL_RE` — the match fails, refuting the claim that it
parses as `3d6`. -/
theorem C4_whitespace_counterexample : rollMatch ("3 d 6".data) = none := by decide

/-- C4 (amended): `3 d 6` is rejected by the parser with the
malformed-expression error (whitespace is not permitted between the
count digits and the `d` separator, nor between `d` and the sides
digits), while leading/trailing whitespace such as in `" 3d6 "` is
accepted. -/
theorem C4_whitespace_rejected :
    ∀ g : Nat → Nat → Nat,
      parse_and_roll g ("3 d 6".data) = .error errMalformed
      ∧ rollMatch (" 3d6 ".data) = some ⟨3, 6, none, 0⟩ := by
  intro g
  constructor
  · rw [parse_and_roll, show rollMatch ("3 d 6".data) = none from by decide]
  · decide

/-- C3 counterexample: for `0d1` both the count (`0`) and the sides
(`1`) are out of range, yet `parse_and_roll` fails with the count error
and not the sides error — so "fails with the sides-range error exactly
when the parsed sides is < 2 or > 1000" is false as stated. -/
theorem C3_error_counterexample :
    rollMatch ("0d1".data) = some ⟨0, 1, none, 0⟩
    ∧ parse_and_roll (fun _ _ => 1) ("0d1".data) = .error errCount
    ∧ errCount ≠ errSides := by
  refine ⟨by decide, by decide, by decide⟩

/-- C3 (amended): a grammar mismatch yields the malformed error; the
count-range error (whose message names the bound 1–500) occurs exactly
when the parsed count is < 1 or > 500; the sides-range error (whose
message names the bound 2–1000) occurs exactly when the count is in
range and the parsed sides is < 2 or > 1000. -/
theorem C3_error_conditions :
    errCount = "Quantidade de dados inválida (1–500).".data
    ∧ errSides = "Lados inválidos (2–1000).".data
    ∧ ∀ (g : Nat → Nat → Nat) (expr : List Char),
      (rollMatch expr = none → parse_and_roll g expr = .error errMalformed)
      ∧ ∀ p, rollMatch expr = some p →
          ((parse_and_roll g expr = .error errCount ↔ (p.n < 1 ∨ 500 < p.n))
           ∧ (parse_and_roll g expr = .error errSides ↔
               (1 ≤ p.n ∧ p.n ≤ 500 ∧ (p.sides < 2 ∨ 1000 < p.sides)))) := by
  have hD : MAX_DICE = 500 := rfl
  have hS : MAX_SIDES = 1000 := rfl
  refine ⟨by decide, by decide, ?_⟩
  intro g expr
  constructor
  · intro h; rw [parse_and_roll, h]
  · intro p hp
    have hpr : parse_and_roll g expr
        = (if p.n < 1 ∨ MAX_DICE < p.n
           then (Except.error errCount : Except (List Char) (List Char))
           else if p.sides < 2 ∨ MAX_SIDES < p.sides then Except.error errSides
           else Except.ok (formatMsg (spec_blockOf p) (rolls_blockOf g p) (totalOf g p))) := by
      rw [parse_and_roll, hp]
    rw [hD, hS] at hpr
    rw [hpr]
    by_cases h1 : p.n < 1 ∨ 500 < p.n
    · rw [if_pos h1]
      refine ⟨⟨fun _ => h1, fun _ => rfl⟩, ?_, ?_⟩
      · intro hc
        exact absurd (Except.error.inj hc) (by decide)
      · intro hc
        omega
    · rw [if_neg h1]
      by_cases h2 : p.sides < 2 ∨ 1000 < p.sides
      · rw [if_pos h2]
        refine ⟨⟨?_, fun hc => absurd hc h1⟩, fun _ => ⟨by omega, by omega, h2⟩, fun _ => rfl⟩
        · intro hc
          exact absurd (Except.error.inj hc).symm (by decide)
      · rw [if_neg h2]
        refine ⟨⟨?_, fun hc => absurd hc h1⟩, ?_, fun hc => by omega⟩
        · intro hc
          exact absurd hc (by simp)
        · intro hc
          exact absurd hc (by simp)

/-- Witness for C3 (amended): the boundary examples `0d6`, `501d6`,
`3d1`, `3d1001` and `abc` produce exactly the errors the claim names. -/
theorem C3_error_conditions_witness :
    parse_and_roll (fun _ _ => 1) ("0d6".data) = .error errCount
    ∧ parse_and_roll (fun _ _ => 1) ("501d6".data) = .error errCount
    ∧ parse_and_roll (fun _ _ => 1) ("3d1".data) = .error errSides
    ∧ parse_and_roll (fun _ _ => 1) ("3d1001".data) = .error errSides
    ∧ parse_and_roll (fun _ _ => 1) ("abc".data) = .error errMalformed :=
  ⟨(((C3_error_conditions.2.2 _ _).2 ⟨0, 6, none, 0⟩ (by decide)).1).mpr (by decide),
   (((C3_error_conditions.2.2 _ _).2 ⟨501, 6, none, 0⟩ (by decide)).1).mpr (by decide),
   (((C3_error_conditions.2.2 _ _).2 ⟨3, 1, none, 0⟩ (by decide)).2).mpr (by decide),
   (((C3_error_conditions.2.2 _ _).2 ⟨3, 1001, none, 0⟩ (by decide)).2).mpr (by decide),
   (C3_error_conditions.2.2 _ _).1 (by decide)⟩

/-- C10: the count bound is validated before the sides bound — whenever
the parsed count is out of range (in particular when the sides are also
out of range), the error is the count-range error, which differs from
the sides-range error. -/
theorem C10_count_checked_first (g : Nat → Nat → Nat) (expr : List Char)
    (p : ParsedRoll) (hm : rollMatch expr = some p)
    (hbadn : p.n < 1 ∨ 500 < p.n) (hbads : p.sides < 2 ∨ 1000 < p.sides) :
    parse_and_roll g expr = .error errCount ∧ errCount ≠ errSides := by
  refine ⟨?_, by decide⟩
  have hpr : parse_and_roll g expr
      = (if p.n < 1 ∨ MAX_DICE < p.n
         then (Except.error errCount : Except (List Char) (List Char))
         else if p.sides < 2 ∨ MAX_SIDES < p.sides then Except.error errSides
         else Except.ok (formatMsg (spec_blockOf p) (rolls_blockOf g p) (totalOf g p))) := by
    rw [parse_and_roll, hm]
  rw [hpr, if_pos (by have hD : MAX_DICE = 500 := rfl; omega)]

/-- Witness for C10: `0d1` has both count and sides out of range and
yields the count error. -/
theorem C10_count_checked_first_witness :
    parse_and_roll (fun _ _ => 1) ("0d1".data) = .error errCount
    ∧ errCount ≠ errSides :=
  C10_count_checked_first (fun _ _ => 1) ("0d1".data) ⟨0, 1, none, 0⟩
    (by decide) (by decide) (by decide)

/-- C5: for a validated expression and a sampler honouring the
`randint(1, sides)` contract, the rolls list has length `count`, every
roll lies in `[1, sides]`, the subtotal is the sum of the rolls, the
total is the subtotal adjusted by the operator and modifier, and with no
operator the total equals the plain sum of the rolls. -/
theorem C5_roll_invariants (g : Nat → Nat → Nat) (p : ParsedRoll)
    (hg : ∀ i s, 1 ≤ s → 1 ≤ g i s ∧ g i s ≤ s)
    (hn1 : 1 ≤ p.n) (hn2 : p.n ≤ 500) (hs1 : 2 ≤ p.sides) (hs2 : p.sides ≤ 1000) :
    (rollsOf g p).length = p.n
    ∧ (∀ r ∈ rollsOf g p, 1 ≤ r ∧ r ≤ p.sides)
    ∧ subtotalOf g p = (rollsOf g p).sum
    ∧ totalOf g p = (if p.op = some '+' then (subtotalOf g p : Int) + (p.mod : Int)
        else if p.op = some '-' then (subtotalOf g p : Int) - (p.mod : Int)
        else (subtotalOf g p : Int))
    ∧ (p.op = none → totalOf g p = ((rollsOf g p).sum : Int)) := by
  refine ⟨by simp [rollsOf], ?_, rfl, rfl, ?_⟩
  · intro r hr
    simp only [rollsOf, List.mem_map, List.mem_range] at hr
    obtain ⟨i, _, rfl⟩ := hr
    exact hg i p.sides (by omega)
  · intro hop
    simp [totalOf, hop, subtotalOf]

/-- Witness for C5: three six-sided dice with the constant sampler `1`. -/
theorem C5_roll_invariants_witness :
    (rollsOf (fun _ _ => 1) ⟨3, 6, none, 0⟩).length = 3
    ∧ subtotalOf (fun _ _ => 1) ⟨3, 6, none, 0⟩
        = (rollsOf (fun _ _ => 1) ⟨3, 6, none, 0⟩).sum :=
  ⟨(C5_roll_invariants (fun _ _ => 1) ⟨3, 6, none, 0⟩
      (fun _ s hs => ⟨Nat.le_refl 1, hs⟩) (by decide) (by decide) (by decide)
      (by decide)).1,
   (C5_roll_invariants (fun _ _ => 1) ⟨3, 6, none, 0⟩
      (fun _ s hs => ⟨Nat.le_refl 1, hs⟩) (by decide) (by decide) (by decide)
      (by decide)).2.2.1⟩

/-- C7: the spec segment is `` `[<count>d<sides>]` `` when the operator
is none or the modifier is 0, and carries ` <sign> <modifier>` exactly
when the operator is present and the modifier nonzero; and `3d6+0`
parses with an operator token yet a zero modifier. -/
theorem C7_spec_segment :
    (∀ p : ParsedRoll,
      ((p.op = none ∨ p.mod = 0) →
        spec_blockOf p = bq :: '[' :: (natDecimal p.n ++ 'd' :: natDecimal p.sides
          ++ (']' :: [bq])))
      ∧ (∀ c, p.op = some c → p.mod ≠ 0 →
        spec_blockOf p = bq :: '[' :: (natDecimal p.n ++ 'd' :: natDecimal p.sides
          ++ ' ' :: c :: ' ' :: (natDecimal p.mod ++ (']' :: [bq])))))
    ∧ rollMatch ("3d6+0".data) = some ⟨3, 6, some '+', 0⟩ := by
  refine ⟨?_, by decide⟩
  intro p
  constructor
  · intro h
    rcases hpop : p.op with _ | oc
    · simp [spec_blockOf, specOf, hpop]
    · have hmod : p.mod = 0 := by
        rcases h with h | h
        · exact absurd h (by simp [hpop])
        · exact h
      simp [spec_blockOf, specOf, hpop, hmod]
  · intro c hc hmod
    simp [spec_blockOf, specOf, hc, hmod, List.append_assoc]

/-- Witness for C7: the spec segment of `3d6+0` (operator present,
modifier zero) omits the operator and modifier. -/
theorem C7_spec_segment_witness :
    spec_blockOf ⟨3, 6, some '+', 0⟩
      = bq :: '[' :: (natDecimal 3 ++ 'd' :: natDecimal 6 ++ (']' :: [bq])) :=
  (C7_spec_segment.1 ⟨3, 6, some '+', 0⟩).1 (Or.inr rfl)

/-- C8: when the formatted message is longer than 1900 characters but
contains neither `" Rolagem: "` nor `" Resultado: "`, the splitter does
not raise: it falls back to an empty rolls segment (zero chunk
messages) and treats the entire original message as the result
segment. -/
theorem C8_fallback (msg : List Char)
    (h1 : splitFirst? rolagemSep msg = none)
    (h2 : splitFirst? resultadoSep msg = none)
    (hlong : 1900 < msg.length) :
    splitPieces msg = (msg, [], msg)
    ∧ send_roll_to_channel msg = [msg, msg] := by
  have hhead : splitBefore rolagemSep msg = msg := by
    rw [splitBefore, h1]
  have hleft : msg.drop (msg.length + 1) = [] := by
    apply List.drop_eq_nil_of_le
    omega
  have hresleft : splitFirst? resultadoSep ([] : List Char) = none := by decide
  have hpieces : splitPieces msg = (msg, [], msg) := by
    simp only [splitPieces, hhead, hleft, hresleft]
  refine ⟨hpieces, ?_⟩
  rw [send_roll_to_channel, if_neg (by omega), hpieces]
  rfl

/-- Witness for C8: a 1901-character message of `a`s contains neither
delimiter. -/
theorem C8_fallback_witness :
    splitPieces (List.replicate 1901 'a')
      = (List.replicate 1901 'a', [], List.replicate 1901 'a')
    ∧ send_roll_to_channel (List.replicate 1901 'a')
      = [List.replicate 1901 'a', List.replicate 1901 'a'] :=
  C8_fallback (List.replicate 1901 'a')
    (splitFirst?_none_of_not_mem (fun h => by
      rw [List.mem_replicate] at h
      exact absurd h.2 (by decide)))
    (splitFirst?_none_of_not_mem (fun h => by
      rw [List.mem_replicate] at h
      exact absurd h.2 (by decide)))
    (by rw [List.length_replicate]; omega)

theorem space_not_sign {c : Char} (h : isSpaceChar c = true) :
    c ≠ '+' ∧ c ≠ '-' := by
  constructor <;> rintro rfl <;>
    rcases isSpaceChar_toNat h with h' | h' | h' | h' | h' | h' <;>
      exact absurd h' (by decide)

theorem digit_not_sign {c : Char} (h : isDigitChar c = true) :
    c ≠ '+' ∧ c ≠ '-' :=
  ⟨digit_char_ne h (by decide), digit_char_ne h (by decide)⟩

/-- C6: for every count in `[1,500]` and sides in `[2,1000]`, parsing
`<count>d<sides>` succeeds with operator `none` and modifier `0`; and
for every accepted input, the operator is `none` exactly when the input
carries no sign token (`+` or `-`) anywhere. -/
theorem C6_no_modifier_parse :
    (∀ count sides : Nat, 1 ≤ count → count ≤ 500 → 2 ≤ sides → sides ≤ 1000 →
      rollMatch (natDecimal count ++ 'd' :: natDecimal sides)
        = some ⟨count, sides, none, 0⟩)
    ∧ ∀ (expr : List Char) (p : ParsedRoll), rollMatch expr = some p →
        (p.op = none ↔ ∀ c ∈ expr, c ≠ '+' ∧ c ≠ '-') := by
  constructor
  · intro count sides h1 h2 h3 h4
    have hndig : ∀ c ∈ natDecimal count, isDigitChar c = true := natDecimal_digits
    have hsdig : ∀ c ∈ natDecimal sides, isDigitChar c = true := natDecimal_digits
    have hlen_n1 : 1 ≤ (natDecimal count).length := by
      cases hnd : natDecimal count with
      | nil => exact absurd hnd natDecimal_ne_nil
      | cons c0 t0 => simp
    have hlen_n : (natDecimal count).length ≤ 3 := natDecimal_length_le (by omega)
      (by rw [show (10:Nat) ^ 3 = 1000 from by norm_num]; omega)
    have hlen_s1 : 1 ≤ (natDecimal sides).length := by
      cases hnd : natDecimal sides with
      | nil => exact absurd hnd natDecimal_ne_nil
      | cons c0 t0 => simp
    have hlen_s : (natDecimal sides).length ≤ 4 := natDecimal_length_le (by omega)
      (by rw [show (10:Nat) ^ 4 = 10000 from by norm_num]; omega)
    have hskip : skipWs (natDecimal count ++ 'd' :: natDecimal sides)
        = natDecimal count ++ 'd' :: natDecimal sides := by
      obtain ⟨c0, t0, hnd⟩ := List.exists_cons_of_ne_nil (natDecimal_ne_nil (n := count))
      rw [hnd, List.cons_append]
      exact skipWs_cons_of_neg (isSpaceChar_of_digit (hndig c0 (by rw [hnd]; simp)))
    have htd1 : takeDigits (natDecimal count ++ 'd' :: natDecimal sides)
        = (natDecimal count, 'd' :: natDecimal sides) :=
      takeDigits_append_stop hndig (by decide)
    have htd2 : takeDigits (natDecimal sides) = (natDecimal sides, []) :=
      takeDigits_all hsdig
    simp only [rollMatch, hskip, htd1, htd2, skipWs]
    rw [if_neg (by omega), if_pos (Or.inl trivial), if_neg (by omega),
      natDecimal_toNat, natDecimal_toNat]
  · intro expr p hp
    obtain ⟨w1, nds, dc, sds, rest2, heq, hw1s, hnds, hn1, hn4, hdc, hsds, hs1, hs5,
      hpn, hps, hbr⟩ := rollMatch_decomp hp
    constructor
    · intro hop c hc
      rcases hbr with ⟨_, _, hrest⟩ |
        ⟨w2, oc, w3, mds, w4, hr2, hw2s, hoc, hw3s, hmds, hm1, hm6, hw4s, hop', hmod⟩
      · subst heq
        simp only [List.mem_append, List.mem_cons] at hc
        rcases hc with (hc | hc) | hc | hc | hc
        · exact space_not_sign (hw1s c hc)
        · exact digit_not_sign (hnds c hc)
        · rcases hdc with rfl | rfl <;> subst hc <;> exact ⟨by decide, by decide⟩
        · exact digit_not_sign (hsds c hc)
        · exact space_not_sign (hrest c hc)
      · rw [hop] at hop'
        exact absurd hop' (by simp)
    · intro hall
      rcases hbr with ⟨hop, _, _⟩ |
        ⟨w2, oc, w3, mds, w4, hr2, hw2s, hoc, hw3s, hmds, hm1, hm6, hw4s, hop', hmod⟩
      · exact hop
      · exfalso
        have hmem : oc ∈ expr := by
          subst heq
          subst hr2
          simp [List.mem_append, List.mem_cons]
        rcases hoc with rfl | rfl
        · exact (hall _ hmem).1 rfl
        · exact (hall _ hmem).2 rfl

/-- Witness for C6: `3d20` built from the decimal renderings parses with
operator `none` and modifier `0`, and the second part confirms the
operator is `none` because its text carries no sign token. -/
theorem C6_no_modifier_parse_witness :
    rollMatch (natDecimal 3 ++ 'd' :: natDecimal 20) = some ⟨3, 20, none, 0⟩
    ∧ (⟨3, 20, none, 0⟩ : ParsedRoll).op = none := by
  have h := C6_no_modifier_parse.1 3 20 (by decide) (by decide) (by decide) (by decide)
  exact ⟨h, (C6_no_modifier_parse.2 _ _ h).mpr (by decide)⟩

/-- C2: for every formatted message longer than 1900 characters, the
splitter emits the header (the part before `" Rolagem: "`, i.e. the spec
block) as one message, then the rolls text in sequential chunks of at
most 1700 characters whose in-order concatenation equals the original
rolls text exactly, then one message equal to `"Resultado: "` followed
by the original result text. -/
theorem C2_split_roundtrip (g : Nat → Nat → Nat) (expr msg : List Char)
    (p : ParsedRoll) (hm : rollMatch expr = some p)
    (hok : parse_and_roll g expr = .ok msg)
    (hlong : 1900 < msg.length) :
    msg = formatMsg (spec_blockOf p) (rolls_blockOf g p) (totalOf g p)
    ∧ send_roll_to_channel msg
        = spec_blockOf p :: (chunksOf 1700 (rolls_blockOf g p)
            ++ [resultadoLabel ++ intDecimal (totalOf g p)])
    ∧ (chunksOf 1700 (rolls_blockOf g p)).flatten = rolls_blockOf g p
    ∧ ∀ c ∈ chunksOf 1700 (rolls_blockOf g p), c.length ≤ 1700 := by
  obtain ⟨p', hm', hb1, hb2, hb3, hb4, hmsg⟩ := parse_and_roll_ok hok
  obtain rfl : p = p' := by
    rw [hm] at hm'
    exact Option.some.inj hm'
  have hop := rollMatch_op_cases hm
  have hRS := notR_spec_block hop
  have hRR := notR_rolls_block g p
  have hTT := notSpace_intDecimal (totalOf g p)
  refine ⟨hmsg, ?_, chunksOf_flatten (by omega) _, chunksOf_length_le⟩
  rw [hmsg] at hlong ⊢
  rw [formatMsg] at hlong ⊢
  exact send_format_long hRS hRR hTT hlong

theorem joinCommaSpace_replicate_length (x : List Char) :
    ∀ n : Nat, (joinCommaSpace (List.replicate (n + 1) x)).length
      = (n + 1) * x.length + n * 2 := by
  intro n
  induction n with
  | zero => simp [joinCommaSpace]
  | succ m ih =>
    rw [List.replicate_succ, List.replicate_succ, joinCommaSpace, ← List.replicate_succ]
    rw [List.length_append, List.length_cons, List.length_cons, ih]
    ring

theorem rollsOf_big : rollsOf gBig pBig = List.replicate 500 1000 := by
  simp [rollsOf, gBig, pBig, List.map_const']

theorem rolls_block_big_length : (rolls_blockOf gBig pBig).length = 3002 := by
  rw [rolls_blockOf, rollsOf_big, List.map_replicate]
  have h4 : (natDecimal 1000).length = 4 := by decide
  have hj := joinCommaSpace_replicate_length (natDecimal 1000) 499
  simp only [List.length_cons, List.length_append, hj, h4]
  norm_num

theorem msgBig_length :
    (formatMsg (spec_blockOf pBig) (rolls_blockOf gBig pBig) (totalOf gBig pBig)).length
      = 3042 := by
  have h1 : (spec_blockOf pBig).length = 12 := by decide
  have h2 := rolls_block_big_length
  have h3 : (intDecimal (totalOf gBig pBig)).length = 6 := by decide
  have h4 : rolagemSep.length = 10 := by decide
  have h5 : resultadoSep.length = 12 := by decide
  simp only [formatMsg, List.length_append, h1, h2, h3, h4, h5]

/-- Witness for C2: `500d1000` with the sampler constantly `1000`
produces a 3042-character message, split into the header, two chunks
(1700 and 1302 characters) and the result line. -/
theorem C2_split_roundtrip_witness :
    formatMsg (spec_blockOf pBig) (rolls_blockOf gBig pBig) (totalOf gBig pBig)
      = formatMsg (spec_blockOf pBig) (rolls_blockOf gBig pBig) (totalOf gBig pBig)
    ∧ send_roll_to_channel
        (formatMsg (spec_blockOf pBig) (rolls_blockOf gBig pBig) (totalOf gBig pBig))
        = spec_blockOf pBig :: (chunksOf 1700 (rolls_blockOf gBig pBig)
            ++ [resultadoLabel ++ intDecimal (totalOf gBig pBig)])
    ∧ (chunksOf 1700 (rolls_blockOf gBig pBig)).flatten = rolls_blockOf gBig pBig
    ∧ ∀ c ∈ chunksOf 1700 (rolls_blockOf gBig pBig), c.length ≤ 1700 :=
  C2_split_roundtrip gBig ("500d1000".data)
    (formatMsg (spec_blockOf pBig) (rolls_blockOf gBig pBig) (totalOf gBig pBig))
    pBig (by decide)
    (by
      rw [parse_and_roll, show rollMatch ("500d1000".data) = some pBig from by decide]
      exact rfl)
    (by rw [msgBig_length]; omega)

/-- C9: for every accepted expression and a sampler honouring the
`randint(1, sides)` contract, every outbound message of the roll
pipeline has length at most 1900 — the unsplit message via the 1900
guard, and otherwise the short header, the 1700-character chunks, and
the short result line. -/
theorem C9_messages_bounded (g : Nat → Nat → Nat) (expr msg : List Char)
    (hg : ∀ i s, 1 ≤ s → 1 ≤ g i s ∧ g i s ≤ s)
    (hok : parse_and_roll g expr = .ok msg) :
    ∀ out ∈ send_roll_to_channel msg, out.length ≤ 1900 := by
  obtain ⟨p, hm, hn1, hn2, hs1, hs2, hmsg⟩ := parse_and_roll_ok hok
  intro out hout
  by_cases hlen : msg.length ≤ 1900
  · rw [send_roll_to_channel, if_pos hlen] at hout
    rw [List.mem_singleton] at hout
    subst hout
    exact hlen
  · have hop := rollMatch_op_cases hm
    have hmod := rollMatch_mod_lt hm
    have hRS := notR_spec_block hop
    have hRR := notR_rolls_block g p
    have hTT := notSpace_intDecimal (totalOf g p)
    rw [hmsg, formatMsg] at hout hlen
    rw [send_format_long hRS hRR hTT (by omega)] at hout
    rcases List.mem_cons.1 hout with rfl | hout
    · have := spec_block_length_le hn2 hs2 hmod
      omega
    · rcases List.mem_append.1 hout with hout | hout
      · have := chunksOf_length_le out hout
        omega
      · rw [List.mem_singleton] at hout
        subst hout
        have hbounds := totalOf_bounds hg hn2 hs1 hs2 hmod
        have hint := intDecimal_length_le hbounds.1 hbounds.2
        have hlab : resultadoLabel.length = 11 := by decide
        simp only [List.length_append]
        omega

/-- Witness for C9: the single message produced for `3d6` with the
constant sampler `1` is within the 1900-character bound. -/
theorem C9_messages_bounded_witness :
    ("`[3d6]` Rolagem: `[1, 1, 1]` Resultado: 3".data).length ≤ 1900 :=
  C9_messages_bounded (fun _ _ => 1) ("3d6".data)
    ("`[3d6]` Rolagem: `[1, 1, 1]` Resultado: 3".data)
    (fun _ s hs => ⟨Nat.le_refl 1, hs⟩) (by decide)
    ("`[3d6]` Rolagem: `[1, 1, 1]` Resultado: 3".data) (by decide)
